import Mathlib

/-!
Verification of the sort/pin/render state logic of the data-grid widget in
`src/main.jsx`. The React component is embedded shallowly: the hook state
(`data`, `loading`, `error`, `sortedOn`, `pinnedColumns`) becomes an explicit
state record, the `useCallback` handlers become pure state-transition
functions, and the JSX render becomes a function from state to a view tree.
JSON scalar values are numbers or strings; numbers are modelled as integers
(the dataset values in scope are integral and lodash comparison needs only
ordering). lodash `sortBy` is a stable sort by `compareAscending` on the
selected property; it is modelled with `List.mergeSort`, which is stable.
-/

namespace DataGrid

/-- A JSON scalar cell value: a number or a string. -/
inductive Value where
  | num (n : Int)
  | str (s : String)
deriving DecidableEq

/-- A row is a JS object: an association list from column name to value,
in key insertion order (the dataset's column names are not integer-like,
so JS `Object.keys` order is insertion order). -/
def Row := List (String × Value)
deriving DecidableEq

/-- JS property access `row[col]`: the value bound to the key, or
`undefined` (here `none`) when the key is absent. -/
def getVal (r : Row) (c : String) : Option Value :=
  (List.find? (fun p => p.1 == c) r).map (fun p => p.2)

/-- JS `Object.keys(row)`. -/
def keys (r : Row) : List String :=
  r.map (fun p => p.1)

/-- Partial model of JS `ToNumber` on strings, used when `<` compares a
number with a string: optionally signed digit strings convert, anything
else (in the value domain that occurs here) yields NaN, i.e. `none`. -/
def strToNum (s : String) : Option Int :=
  if s.startsWith "-" then ((s.drop 1).toNat?).map (fun n => -(n : Int))
  else (s.toNat?).map (fun n => (n : Int))

/-- JS `<` on our scalar values: numeric on numbers, lexicographic on
strings, and number-vs-string by coercing the string to a number (a NaN
coercion makes the comparison false). -/
def jsLt : Value → Value → Bool
  | .num m, .num n => decide (m < n)
  | .str s, .str t => decide (s < t)
  | .num m, .str t =>
    match strToNum t with
    | some n => decide (m < n)
    | none => false
  | .str s, .num n =>
    match strToNum s with
    | some m => decide (m < n)
    | none => false

/-- JS `a > b` holds exactly when `b < a`. -/
def jsGt (a b : Value) : Bool := jsLt b a

/-- lodash `compareAscending` restricted to the value domain in play
(defined values are numbers/strings, `none` is `undefined`): `1` when the
first sorts after the second, `-1` when before, `0` on ties; `undefined`
sorts after every defined value. -/
def cmpV : Option Value → Option Value → Int
  | some a, some b => if jsGt a b then 1 else if jsLt a b then -1 else 0
  | none, some _ => 1
  | some _, none => -1
  | none, none => 0

/-- lodash `compareAscending` applied to the values of column `c` of two
rows, as in `sortBy(data, [c])`. -/
def cmpAt (c : String) (r r' : Row) : Int :=
  cmpV (getVal r c) (getVal r' c)

/-- The "sorts no later than" relation induced by `compareAscending` on
column `c`; `sortBy` orders rows so that consecutive comparisons are ≤ 0. -/
def rowLE (c : String) (r r' : Row) : Bool :=
  decide (cmpAt c r r' ≤ 0)

/-- lodash `sortBy(data, [col])`: a stable sort of the rows by
`compareAscending` on the `col` property. -/
def sortBy (data : List Row) (col : String) : List Row :=
  List.mergeSort data (rowLE col)

/-- The constant `ASC` from the source. -/
def ASC : String := "ascending"

/-- The constant `DEC` from the source. -/
def DEC : String := "descending"

/-- The `sortedOn` state object `{ direction, column }`. -/
structure SortedOn where
  direction : String
  column : String
deriving DecidableEq

/-- The state held by the `useStateData` hook. -/
structure AppState where
  data : List Row
  loading : Bool
  error : Option String
  sortedOn : SortedOn
  pinnedColumns : List String
deriving DecidableEq

/-- The initial hook state: `useState([])`, `useState(false)`,
`useState(null)`, `useState({direction: ASC, column: "state"})`,
`useState([])`. -/
def initState : AppState :=
  { data := []
    loading := false
    error := none
    sortedOn := { direction := ASC, column := "state" }
    pinnedColumns := [] }

/-- The `handlePinning` callback: remove the column when already pinned
(`filter(c => c !== col)`), otherwise append it. -/
def handlePinning (col : String) (s : AppState) : AppState :=
  if col ∈ s.pinnedColumns then
    { s with pinnedColumns := s.pinnedColumns.filter (fun c => c != col) }
  else
    { s with pinnedColumns := s.pinnedColumns ++ [col] }

/-- The `handleSort` callback: a three-way branch on whether `col` is the
current sort column and on the current direction, exactly as in the source.
lodash `reverse` reverses the freshly produced `sortBy` result. -/
def handleSort (col : String) (s : AppState) : AppState :=
  if s.sortedOn.column = col then
    if s.sortedOn.direction = ASC then
      { s with sortedOn := { s.sortedOn with direction := DEC }
               data := (sortBy s.data col).reverse }
    else
      { s with sortedOn := { direction := ASC, column := "state" }
               data := sortBy s.data "state" }
  else
    { s with sortedOn := { direction := ASC, column := col }
             data := sortBy s.data col }

/-- lodash `uniq`, keeping the first occurrence of each element;
`seen` accumulates the elements already emitted. -/
def uniqAux (seen : List String) : List String → List String
  | [] => []
  | x :: xs => if x ∈ seen then uniqAux seen xs else x :: uniqAux (x :: seen) xs

/-- lodash `uniq` on column names. -/
def uniq (l : List String) : List String := uniqAux [] l

/-- JS `String.prototype.startsWith`: the argument is a prefix of the
receiver. -/
def strStartsWith (s pre : String) : Bool := List.isPrefixOf pre.data s.data

/-- The `initialColumns` memo: `uniq(flatten(data.map(row =>
Object.keys(row).filter(key => !key.startsWith("_")))))`. -/
def initialColumns (data : List Row) : List String :=
  uniq ((data.map (fun row => (keys row).filter (fun k => !(strStartsWith k "_")))).flatten)

/-- The `newColumns` memo: `uniq([...pinnedColumns, ...initialColumns])`. -/
def newColumns (pinnedColumns : List String) (data : List Row) : List String :=
  uniq (pinnedColumns ++ initialColumns data)

/-- Insert a comma after every third character, walking a digit list given
least-significant first. -/
def commaRev : List Char → List Char
  | a :: b :: c :: d :: rest => a :: b :: c :: ',' :: commaRev (d :: rest)
  | l => l

/-- JS `Number.prototype.toLocaleString` for integers in the default
en-US locale: decimal digits grouped in threes by commas. -/
def toLocaleString (n : Int) : String :=
  if n < 0 then "-" ++ ⟨(commaRev (toString n.natAbs).data.reverse).reverse⟩
  else ⟨(commaRev (toString n.toNat).data.reverse).reverse⟩

/-- What a `Cell` puts inside its `<td>`: an `<img>` with the given `src`,
a text node, or nothing (a JSX `undefined` child renders as empty). -/
inductive CellView where
  | image (src : String)
  | text (s : String)
  | empty
deriving DecidableEq

/-- JS `String.prototype.toLowerCase` on the character range in play
(the dataset is ASCII; only ASCII case folding is modelled). -/
def strLower (s : String) : String := ⟨s.data.map Char.toLower⟩

/-- JS `String.prototype.endsWith`: the argument is a suffix of the
receiver. -/
def strEndsWith (s sfx : String) : Bool := sfx.data.isSuffixOf s.data

/-- The `Cell` component body: a string ending case-insensitively in
`.png` becomes an image, a number is rendered via `toLocaleString`, any
other string is raw text, and `undefined` (missing key) renders empty. -/
def renderCell : Option Value → CellView
  | some (.str s) =>
    if strEndsWith (strLower s) ".png" then CellView.image s else CellView.text s
  | some (.num n) => CellView.text (toLocaleString n)
  | none => CellView.empty

/-- The tree `DataGrid` returns: the loading indicator, the bare error
text, or the table of header titles and cell views. -/
inductive View where
  | loadingView
  | errorView (msg : String)
  | tableView (cols : List String) (rows : List (List CellView))
deriving DecidableEq

/-- The `DataGrid` component body: `if (loading)` the loading indicator,
`if (error)` the error text alone (the only error value ever set is the
non-empty, hence truthy, string "Error fetching states"), otherwise the
table over `newColumns` with one `Cell` per column per row. -/
def renderGrid (s : AppState) : View :=
  if s.loading then View.loadingView
  else
    match s.error with
    | some e => View.errorView e
    | none =>
      let cols := newColumns s.pinnedColumns s.data
      View.tableView cols
        (s.data.map (fun row => cols.map (fun c => renderCell (getVal row c))))

/-- The `getStatesData` callback, parameterised by the outcome of
`fetch` + `res.json()`: on success the parsed rows replace `data` and
`loading` clears; on any rejection the catch block clears `loading` and
sets the error string. `setLoading(true)` runs first in both paths. -/
def getStatesData (result : Except String (List Row)) (s : AppState) : AppState :=
  match result with
  | .ok d => { s with loading := false, data := d }
  | .error _ => { s with loading := false, error := some "Error fetching states" }

/-- Whether a value is a number (lodash `isNumber`). -/
def valIsNum : Value → Bool
  | .num _ => true
  | .str _ => false

/-- A column is comparable over a dataset when its defined values are all
numbers or all strings (missing keys are allowed: `undefined` sorts after
every defined value). Mixed number/string columns make lodash ordering
intransitive (NaN coercions compare as ties), which is what the spec's
"comparable values" proviso excludes. -/
def homogCol (c : String) (data : List Row) : Bool :=
  data.all (fun r => match getVal r c with
    | some v => valIsNum v
    | none => true) ||
  data.all (fun r => match getVal r c with
    | some v => !(valIsNum v)
    | none => true)

/-- A globally total and transitive comparison that agrees with the
lodash ordering on every homogeneous column: numbers by value, strings
lexicographically, numbers before strings, `undefined` last. Used only to
transport the library's sortedness and stability lemmas. -/
def leCanon : Option Value → Option Value → Bool
  | some (.num m), some (.num n) => decide (m ≤ n)
  | some (.str s), some (.str t) => decide (s ≤ t)
  | some (.num _), some (.str _) => true
  | some (.str _), some (.num _) => false
  | some _, none => true
  | none, some _ => false
  | none, none => true

/-- The canonical comparison lifted to rows on column `c`. -/
def leCanonAt (c : String) (r r' : Row) : Bool :=
  leCanon (getVal r c) (getVal r' c)

/-- C5: `handlePinning` touches only `pinnedColumns`: the dataset (and its
row order), the sort state, the loading flag and the error are unchanged. -/
theorem togglePin_frame (s : AppState) (c : String) :
    (handlePinning c s).data = s.data ∧
    (handlePinning c s).sortedOn = s.sortedOn ∧
    (handlePinning c s).loading = s.loading ∧
    (handlePinning c s).error = s.error := by
  unfold handlePinning
  split <;> exact ⟨rfl, rfl, rfl, rfl⟩

/-- C10: before any load begins, `loading` is false, `error` is null,
the dataset and the pin list are empty, the sort state is the default
ascending-by-"state", and hence the very first render is an empty table,
not the loading indicator. -/
theorem initial_state_spec :
    initState.loading = false ∧ initState.error = none ∧
    initState.data = [] ∧ initState.pinnedColumns = [] ∧
    initState.sortedOn = { direction := ASC, column := "state" } ∧
    renderGrid initState = View.tableView [] [] :=
  ⟨rfl, rfl, rfl, rfl, rfl, rfl⟩

/-- C7: when the fetch (or JSON parse) rejects, the catch block sets the
error message and clears loading, the dataset stays empty, and the UI
renders only the error text. -/
theorem load_failure_spec (err : String) :
    (getStatesData (Except.error err) initState).error =
      some "Error fetching states" ∧
    (getStatesData (Except.error err) initState).loading = false ∧
    (getStatesData (Except.error err) initState).data = [] ∧
    renderGrid (getStatesData (Except.error err) initState) =
      View.errorView "Error fetching states" :=
  ⟨rfl, rfl, rfl, rfl⟩

/-- Witness for the failed-load claim at a concrete rejection reason. -/
theorem load_failure_spec_witness :
    (getStatesData (Except.error "network down") initState).loading = false ∧
    renderGrid (getStatesData (Except.error "network down") initState) =
      View.errorView "Error fetching states" :=
  ⟨(load_failure_spec "network down").2.1,
   (load_failure_spec "network down").2.2.2⟩

/-- C4: pinning removes an already-pinned column, keeping the remaining
entries in order (the result is the order-preserving `filter`, a sublist
of the original with the column gone), and appends a new column at the
end; the concrete scenario pop/capital/pop behaves as specified. -/
theorem togglePin_spec (s : AppState) (c : String) :
    (c ∈ s.pinnedColumns →
      (handlePinning c s).pinnedColumns =
        s.pinnedColumns.filter (fun x => x != c) ∧
      (handlePinning c s).pinnedColumns.Sublist s.pinnedColumns ∧
      ¬ c ∈ (handlePinning c s).pinnedColumns) ∧
    (¬ c ∈ s.pinnedColumns →
      (handlePinning c s).pinnedColumns = s.pinnedColumns ++ [c]) ∧
    (handlePinning "capital" (handlePinning "pop" initState)).pinnedColumns =
      ["pop", "capital"] ∧
    (handlePinning "pop"
        (handlePinning "capital" (handlePinning "pop" initState))).pinnedColumns =
      ["capital"] := by
  refine ⟨fun h => ?_, fun h => ?_, by decide, by decide⟩
  · have he : (handlePinning c s).pinnedColumns =
        s.pinnedColumns.filter (fun x => x != c) := by
      unfold handlePinning
      rw [if_pos h]
    refine ⟨he, he ▸ List.filter_sublist _, ?_⟩
    rw [he]
    simp [List.mem_filter]
  · unfold handlePinning
    rw [if_neg h]

/-- Witness for the pin-toggle behaviour at concrete states: removing
"pop" from a two-element pin list and appending to the empty list. -/
theorem togglePin_spec_witness :
    (handlePinning "pop"
        { initState with pinnedColumns := ["pop", "capital"] }).pinnedColumns =
      ["capital"] ∧
    (handlePinning "state" initState).pinnedColumns = ["state"] := by
  constructor
  · exact ((togglePin_spec { initState with pinnedColumns := ["pop", "capital"] }
      "pop").1 (by decide)).1.trans (by decide)
  · exact ((togglePin_spec initState "state").2.1 (by decide)).trans (by decide)

/-- C6: cell rendering checks, in order: a string ending
case-insensitively in ".png" becomes an image reference, a number is
rendered with locale grouping, any other value is raw text, and a
missing key renders empty; including the three concrete scenarios. -/
theorem cell_render_policy :
    (∀ s : String, strEndsWith (strLower s) ".png" = true →
      renderCell (some (Value.str s)) = CellView.image s) ∧
    (∀ s : String, strEndsWith (strLower s) ".png" = false →
      renderCell (some (Value.str s)) = CellView.text s) ∧
    (∀ n : Int, renderCell (some (Value.num n)) = CellView.text (toLocaleString n)) ∧
    renderCell none = CellView.empty ∧
    renderCell (some (Value.str "flag.png")) = CellView.image "flag.png" ∧
    renderCell (some (Value.num 1234567)) = CellView.text "1,234,567" ∧
    renderCell (some (Value.str "Texas")) = CellView.text "Texas" := by
  refine ⟨fun s h => ?_, fun s h => ?_, fun n => rfl, rfl, by decide, by decide, by decide⟩
  · simp [renderCell, h]
  · simp [renderCell, h]

/-- Witness for the cell-rendering policy: the image case fires on an
upper-case suffix and the text case on a non-image string. -/
theorem cell_render_policy_witness :
    renderCell (some (Value.str "FLAG.PNG")) = CellView.image "FLAG.PNG" ∧
    renderCell (some (Value.str "Ohio")) = CellView.text "Ohio" :=
  ⟨cell_render_policy.1 "FLAG.PNG" (by decide),
   cell_render_policy.2.1 "Ohio" (by decide)⟩
theorem mem_uniqAux {a : String} (l : List String) :
    ∀ seen, a ∈ uniqAux seen l ↔ a ∈ l ∧ ¬ a ∈ seen := by
  induction l with
  | nil =>
    intro seen
    simp [uniqAux]
  | cons x xs ih =>
    intro seen
    rw [uniqAux]
    split
    · rename_i hx
      rw [ih seen]
      constructor
      · exact fun h => ⟨List.mem_cons_of_mem _ h.1, h.2⟩
      · rintro ⟨h1, h2⟩
        rcases List.mem_cons.mp h1 with rfl | h1
        · exact absurd hx h2
        · exact ⟨h1, h2⟩
    · rename_i hx
      simp only [List.mem_cons, ih (x :: seen)]
      constructor
      · rintro (rfl | ⟨h1, h2⟩)
        · exact ⟨Or.inl rfl, hx⟩
        · exact ⟨Or.inr h1, fun hs => h2 (Or.inr hs)⟩
      · rintro ⟨h1, h2⟩
        rcases h1 with rfl | h1
        · exact Or.inl rfl
        · rcases eq_or_ne a x with rfl | hax
          · exact Or.inl rfl
          · exact Or.inr ⟨h1, fun hs => hs.elim hax h2⟩

theorem mem_uniq {a : String} {l : List String} : a ∈ uniq l ↔ a ∈ l := by
  rw [uniq, mem_uniqAux]
  simp

theorem nodup_uniqAux (l : List String) : ∀ seen, (uniqAux seen l).Nodup := by
  induction l with
  | nil =>
    intro seen
    simp [uniqAux]
  | cons x xs ih =>
    intro seen
    rw [uniqAux]
    split
    · exact ih seen
    · refine List.nodup_cons.mpr ⟨fun hmem => ?_, ih (x :: seen)⟩
      exact ((mem_uniqAux xs (x :: seen)).mp hmem).2 (List.mem_cons_self x seen)

theorem nodup_uniq (l : List String) : (uniq l).Nodup := nodup_uniqAux l []

theorem uniqAux_seen_superset (l : List String) :
    ∀ s₁ s₂ : List String, (∀ a, a ∈ s₂ → a ∈ s₁) →
    uniqAux s₁ l = (uniqAux s₂ l).filter (fun a => decide (¬ a ∈ s₁)) := by
  induction l with
  | nil =>
    intro s₁ s₂ _
    simp [uniqAux]
  | cons x xs ih =>
    intro s₁ s₂ hsub
    by_cases h1 : x ∈ s₁
    · rw [uniqAux, if_pos h1, uniqAux]
      by_cases h2 : x ∈ s₂
      · rw [if_pos h2]
        exact ih s₁ s₂ hsub
      · rw [if_neg h2, List.filter_cons,
          show (decide (¬ x ∈ s₁)) = false by simp [h1]]
        simp only [Bool.false_eq_true, if_false]
        refine ih s₁ (x :: s₂) fun a ha => ?_
        rcases List.mem_cons.mp ha with rfl | ha
        · exact h1
        · exact hsub a ha
    · have h2 : ¬ x ∈ s₂ := fun h => h1 (hsub x h)
      rw [uniqAux, if_neg h1, uniqAux, if_neg h2, List.filter_cons,
        show (decide (¬ x ∈ s₁)) = true by simp [h1]]
      simp only [if_true]
      congr 1
      rw [ih (x :: s₁) (x :: s₂) fun a ha => by
        rcases List.mem_cons.mp ha with rfl | ha
        · exact List.mem_cons_self a s₁
        · exact List.mem_cons_of_mem _ (hsub a ha)]
      refine List.filter_congr fun a ha => ?_
      have hax : a ≠ x := by
        intro e
        exact ((mem_uniqAux xs (x :: s₂)).mp ha).2 (e ▸ List.mem_cons_self x s₂)
      simp [List.mem_cons, hax]

theorem uniqAux_append (q : List String) (p : List String) :
    ∀ seen, p.Nodup → (∀ a ∈ p, ¬ a ∈ seen) →
    uniqAux seen (p ++ q) = p ++ uniqAux (p.reverse ++ seen) q := by
  induction p with
  | nil =>
    intro seen _ _
    simp
  | cons x p ih =>
    intro seen hnd hdisj
    rw [List.cons_append, uniqAux,
      if_neg (hdisj x (List.mem_cons_self x p)), ih (x :: seen)
        (List.nodup_cons.mp hnd).2 ?_]
    · simp [List.append_assoc]
    · intro a ha hmem
      rcases List.mem_cons.mp hmem with rfl | hseen
      · exact (List.nodup_cons.mp hnd).1 ha
      · exact hdisj a (List.mem_cons_of_mem _ ha) hseen

theorem uniq_append (p q : List String) (hp : p.Nodup) :
    uniq (p ++ q) = p ++ (uniq q).filter (fun a => decide (¬ a ∈ p)) := by
  rw [uniq, uniqAux_append q p [] hp (by simp)]
  congr 1
  rw [uniqAux_seen_superset q (p.reverse ++ []) [] (by simp), uniq]
  refine List.filter_congr fun a _ => ?_
  simp [List.mem_reverse]

theorem uniqAux_eq_self (l : List String) :
    ∀ seen, l.Nodup → (∀ a ∈ l, ¬ a ∈ seen) → uniqAux seen l = l := by
  induction l with
  | nil =>
    intro seen _ _
    rfl
  | cons x xs ih =>
    intro seen hnd hdisj
    rw [uniqAux, if_neg (hdisj x (List.mem_cons_self x xs)), ih (x :: seen)
      (List.nodup_cons.mp hnd).2 ?_]
    intro a ha hm
    rcases List.mem_cons.mp hm with rfl | hm
    · exact (List.nodup_cons.mp hnd).1 ha
    · exact hdisj a (List.mem_cons_of_mem _ ha) hm

theorem uniq_of_nodup (l : List String) (h : l.Nodup) : uniq l = l :=
  uniqAux_eq_self l [] h (by simp)

theorem nodup_initialColumns (data : List Row) : (initialColumns data).Nodup :=
  nodup_uniqAux _ []

/-- Structure of the derived column list: the pinned columns first, in
pin order, followed by the row-derived columns that are not pinned, in
first-seen order. -/
theorem newColumns_eq (pinned : List String) (data : List Row)
    (h : pinned.Nodup) :
    newColumns pinned data =
      pinned ++ (initialColumns data).filter (fun a => decide (¬ a ∈ pinned)) := by
  rw [newColumns, uniq_append pinned _ h,
    uniq_of_nodup _ (nodup_initialColumns data)]

theorem mem_initialColumns {k : String} {data : List Row} :
    k ∈ initialColumns data ↔
      ∃ r ∈ data, k ∈ keys r ∧ strStartsWith k "_" = false := by
  rw [initialColumns, mem_uniq]
  simp [List.mem_flatten, List.mem_filter]

theorem nodup_newColumns (pinned : List String) (data : List Row) :
    (newColumns pinned data).Nodup :=
  nodup_uniqAux _ []

/-- C2 counterexample: with pin list `["pop", "capital"]` (reachable by
pinning "pop" then "capital"), toggling "pop" twice yields
`["capital", "pop"]`, which has the original content but not the
original order. -/
theorem togglePin_twice_order_cex :
    (handlePinning "pop" (handlePinning "pop"
      { initState with pinnedColumns := ["pop", "capital"] })).pinnedColumns =
      ["capital", "pop"] ∧
    ¬ (handlePinning "pop" (handlePinning "pop"
      { initState with pinnedColumns := ["pop", "capital"] })).pinnedColumns =
      ["pop", "capital"] := by
  decide

theorem handlePinning_of_mem (c : String) (s : AppState)
    (h : c ∈ s.pinnedColumns) :
    (handlePinning c s).pinnedColumns =
      s.pinnedColumns.filter (fun x => x != c) := by
  unfold handlePinning
  rw [if_pos h]

theorem handlePinning_of_not_mem (c : String) (s : AppState)
    (h : ¬ c ∈ s.pinnedColumns) :
    (handlePinning c s).pinnedColumns = s.pinnedColumns ++ [c] := by
  unfold handlePinning
  rw [if_neg h]

theorem perm_cons_filter_ne (c : String) (p : List String) :
    p.Nodup → c ∈ p → List.Perm (c :: p.filter (fun x => x != c)) p := by
  induction p with
  | nil =>
    intro _ h
    cases h
  | cons x xs ih =>
    intro hnd hm
    rcases List.mem_cons.mp hm with rfl | hm
    · rw [List.filter_cons, show (c != c) = false by simp]
      simp only [Bool.false_eq_true, if_false]
      rw [List.filter_eq_self.mpr fun a ha => by
        simp only [bne_iff_ne, ne_eq, decide_eq_true_eq]
        exact fun e => (List.nodup_cons.mp hnd).1 (e ▸ ha)]
    · have hxc : x ≠ c := by
        intro e
        exact (List.nodup_cons.mp hnd).1 (e ▸ hm)
      rw [List.filter_cons, show (x != c) = true by simp [hxc]]
      simp only [if_true]
      exact (List.Perm.swap x c _).trans
        (List.Perm.cons x (ih (List.nodup_cons.mp hnd).2 hm))

/-- C2 amended: toggling a column twice restores the pin list's content
(a permutation); the order too is restored exactly when the column was
not pinned, while a pinned column is moved to the end of the list. -/
theorem togglePin_twice_content (s : AppState) (c : String)
    (hnd : s.pinnedColumns.Nodup) :
    (handlePinning c (handlePinning c s)).pinnedColumns.Perm s.pinnedColumns ∧
    (¬ c ∈ s.pinnedColumns →
      (handlePinning c (handlePinning c s)).pinnedColumns = s.pinnedColumns) ∧
    (c ∈ s.pinnedColumns →
      (handlePinning c (handlePinning c s)).pinnedColumns =
        s.pinnedColumns.filter (fun x => x != c) ++ [c]) := by
  by_cases h : c ∈ s.pinnedColumns
  · have h1 := handlePinning_of_mem c s h
    have h1n : ¬ c ∈ (handlePinning c s).pinnedColumns := by
      rw [h1]
      simp [List.mem_filter]
    have h2 : (handlePinning c (handlePinning c s)).pinnedColumns =
        s.pinnedColumns.filter (fun x => x != c) ++ [c] := by
      rw [handlePinning_of_not_mem c _ h1n, h1]
    refine ⟨?_, fun hc => absurd h hc, fun _ => h2⟩
    rw [h2]
    exact (List.perm_append_singleton c _).trans (perm_cons_filter_ne c _ hnd h)
  · have h1 := handlePinning_of_not_mem c s h
    have h1m : c ∈ (handlePinning c s).pinnedColumns := by
      rw [h1]
      simp
    have h2 : (handlePinning c (handlePinning c s)).pinnedColumns =
        s.pinnedColumns := by
      rw [handlePinning_of_mem c _ h1m, h1, List.filter_append]
      have hl : s.pinnedColumns.filter (fun x => x != c) = s.pinnedColumns :=
        List.filter_eq_self.mpr fun x hx => by
          simp only [bne_iff_ne, ne_eq, decide_eq_true_eq]
          exact fun e => h (e ▸ hx)
      have hr : List.filter (fun x => x != c) [c] = ([] : List String) := by
        simp
      rw [hl, hr, List.append_nil]
    exact ⟨h2 ▸ List.Perm.refl _, fun _ => h2, fun hc => absurd hc h⟩

/-- Witness for the amended double-toggle claim at the counterexample
state: content is restored as a permutation and "pop" moves to the end. -/
theorem togglePin_twice_content_witness :
    (handlePinning "pop" (handlePinning "pop"
      { initState with pinnedColumns := ["pop", "capital"] })).pinnedColumns.Perm
      ["pop", "capital"] :=
  (togglePin_twice_content
    { initState with pinnedColumns := ["pop", "capital"] } "pop" (by decide)).1

/-- C3 counterexample: the key "_id" is present in a row of the dataset
but absent from the derived column list, so the column list does not
contain every key present in some row. -/
theorem columnList_underscore_cex :
    "_id" ∈ keys [("_id", Value.num 1)] ∧
    ¬ "_id" ∈ newColumns [] [[("_id", Value.num 1)]] := by
  decide

/-- C3 amended: for a duplicate-free pin list, the derived column list is
exactly the pinned columns (in pin insertion order) followed by the
unpinned row-derived columns (in first-seen order); it has no duplicates,
and it contains every key of every row except those starting with an
underscore. -/
theorem columnList_structure (data : List Row) (pinned : List String)
    (hnd : pinned.Nodup) :
    newColumns pinned data =
      pinned ++ (initialColumns data).filter (fun a => decide (¬ a ∈ pinned)) ∧
    (newColumns pinned data).Nodup ∧
    (∀ k, (∃ r ∈ data, k ∈ keys r) → strStartsWith k "_" = false →
      k ∈ newColumns pinned data) ∧
    (∀ k ∈ newColumns pinned data, k ∈ pinned ∨ k ∈ initialColumns data) := by
  refine ⟨newColumns_eq pinned data hnd, nodup_newColumns pinned data,
    fun k hk hu => ?_, fun k hk => ?_⟩
  · rw [newColumns, mem_uniq, List.mem_append]
    obtain ⟨r, hr, hkr⟩ := hk
    exact Or.inr (mem_initialColumns.mpr ⟨r, hr, hkr, hu⟩)
  · rw [newColumns, mem_uniq, List.mem_append] at hk
    exact hk

/-- Witness for the amended column-list claim on a concrete dataset with
a pinned column: structure, dedup and completeness all hold. -/
theorem columnList_structure_witness :
    newColumns ["pop"] [[("state", Value.str "Texas"), ("pop", Value.num 1)]] =
      ["pop"] ++
        (initialColumns [[("state", Value.str "Texas"), ("pop", Value.num 1)]]).filter
          (fun a => decide (¬ a ∈ ["pop"])) ∧
    (newColumns ["pop"]
      [[("state", Value.str "Texas"), ("pop", Value.num 1)]]).Nodup ∧
    (∀ k, (∃ r ∈ ([[("state", Value.str "Texas"), ("pop", Value.num 1)]] : List Row),
        k ∈ keys r) → strStartsWith k "_" = false →
      k ∈ newColumns ["pop"] [[("state", Value.str "Texas"), ("pop", Value.num 1)]]) ∧
    (∀ k ∈ newColumns ["pop"] [[("state", Value.str "Texas"), ("pop", Value.num 1)]],
      k ∈ ["pop"] ∨
        k ∈ initialColumns [[("state", Value.str "Texas"), ("pop", Value.num 1)]]) :=
  columnList_structure [[("state", Value.str "Texas"), ("pop", Value.num 1)]]
    ["pop"] (by decide)

/-- C8: keys with a leading underscore never enter the row-derived
column list, and hence never enter the displayed column list as long as
no underscore key is pinned (pinning is only reachable from displayed
headers). -/
theorem underscore_excluded (data : List Row) (pinned : List String)
    (k : String) (hk : strStartsWith k "_" = true) :
    ¬ k ∈ initialColumns data ∧
    ((∀ p ∈ pinned, strStartsWith p "_" = false) →
      ¬ k ∈ newColumns pinned data) := by
  have hinit : ¬ k ∈ initialColumns data := by
    intro hmem
    obtain ⟨r, _, _, hks⟩ := mem_initialColumns.mp hmem
    rw [hk] at hks
    exact Bool.noConfusion hks
  refine ⟨hinit, fun hp hmem => ?_⟩
  rw [newColumns, mem_uniq, List.mem_append] at hmem
  rcases hmem with hmem | hmem
  · rw [hp k hmem] at hk
    exact Bool.noConfusion hk
  · exact hinit hmem

/-- Witness for the underscore-exclusion claim at a concrete dataset. -/
theorem underscore_excluded_witness :
    ¬ "_id" ∈ initialColumns [[("_id", Value.num 1), ("state", Value.str "Ohio")]] :=
  (underscore_excluded [[("_id", Value.num 1), ("state", Value.str "Ohio")]]
    [] "_id" (by decide)).1

/-- C9: every pinned column appears in the derived column list even when
it is a key of no row, and the column list splits as the pinned columns
followed by entries that are all unpinned. -/
theorem pinned_always_displayed (data : List Row) (pinned : List String)
    (hnd : pinned.Nodup) :
    (∀ c ∈ pinned, c ∈ newColumns pinned data) ∧
    ∃ rest, newColumns pinned data = pinned ++ rest ∧
      ∀ k ∈ rest, ¬ k ∈ pinned := by
  refine ⟨fun c hc => ?_,
    ⟨(initialColumns data).filter (fun a => decide (¬ a ∈ pinned)),
      newColumns_eq pinned data hnd, fun k hk => ?_⟩⟩
  · rw [newColumns_eq pinned data hnd]
    exact List.mem_append_left _ hc
  · have := (List.mem_filter.mp hk).2
    simpa using this

/-- Witness for the pinned-column claim: the pinned name "ghost" is a key
of no row yet appears in the derived column list. -/
theorem pinned_always_displayed_witness :
    "ghost" ∈ newColumns ["ghost"] [[("state", Value.str "Ohio")]] :=
  (pinned_always_displayed [[("state", Value.str "Ohio")]] ["ghost"]
    (by decide)).1 "ghost" (by decide)

theorem merge_congr {α : Type} (le₁ le₂ : α → α → Bool) :
    ∀ (xs ys : List α), (∀ a b, a ∈ xs → b ∈ ys → le₁ a b = le₂ a b) →
    List.merge xs ys le₁ = List.merge xs ys le₂
  | [], ys, _ => by simp
  | x :: xs, [], _ => by simp
  | x :: xs, y :: ys, h => by
    rw [List.cons_merge_cons, List.cons_merge_cons,
      h x y (List.mem_cons_self x xs) (List.mem_cons_self y ys)]
    split
    · rw [merge_congr le₁ le₂ xs (y :: ys)
        fun a b ha hb => h a b (List.mem_cons_of_mem _ ha) hb]
    · rw [merge_congr le₁ le₂ (x :: xs) ys
        fun a b ha hb => h a b ha (List.mem_cons_of_mem _ hb)]
termination_by xs ys => xs.length + ys.length

theorem mergeSort_congr {α : Type} (le₁ le₂ : α → α → Bool) :
    ∀ (l : List α), (∀ a b, a ∈ l → b ∈ l → le₁ a b = le₂ a b) →
    List.mergeSort l le₁ = List.mergeSort l le₂
  | [], _ => by simp
  | [a], _ => by simp
  | a :: b :: xs, h => by
    have hl1 : (List.splitInTwo ⟨a :: b :: xs, rfl⟩).1.1.length < xs.length + 1 + 1 := by
      simp [List.splitInTwo_fst]
      omega
    have hl2 : (List.splitInTwo ⟨a :: b :: xs, rfl⟩).2.1.length < xs.length + 1 + 1 := by
      simp [List.splitInTwo_snd]
      omega
    have hfst : ∀ x ∈ (List.splitInTwo ⟨a :: b :: xs, rfl⟩).1.1, x ∈ a :: b :: xs := by
      intro x hx
      rw [List.splitInTwo_fst] at hx
      exact (List.take_sublist _ _).subset hx
    have hsnd : ∀ x ∈ (List.splitInTwo ⟨a :: b :: xs, rfl⟩).2.1, x ∈ a :: b :: xs := by
      intro x hx
      rw [List.splitInTwo_snd] at hx
      exact (List.drop_sublist _ _).subset hx
    rw [List.mergeSort, List.mergeSort,
      mergeSort_congr le₁ le₂ _ fun p q hp hq => h p q (hfst p hp) (hfst q hq),
      mergeSort_congr le₁ le₂ _ fun p q hp hq => h p q (hsnd p hp) (hsnd q hq)]
    exact merge_congr le₁ le₂ _ _ fun p q hp hq =>
      h p q (hfst p (List.mem_mergeSort.mp hp)) (hsnd q (List.mem_mergeSort.mp hq))
termination_by l => l.length

theorem leCanon_total (a b : Option Value) :
    (leCanon a b || leCanon b a) = true := by
  rcases a with _ | (m₁ | s₁) <;> rcases b with _ | (m₂ | s₂) <;>
    simp [leCanon] <;> first | omega | exact le_total s₁.data s₂.data

theorem leCanon_trans (a b c : Option Value) (hab : leCanon a b = true)
    (hbc : leCanon b c = true) : leCanon a c = true := by
  rcases a with _ | (m₁ | s₁) <;> rcases b with _ | (m₂ | s₂) <;>
    rcases c with _ | (m₃ | s₃) <;> simp_all [leCanon] <;>
    first
      | omega
      | exact le_trans (by assumption) (by assumption)

theorem leCanonAt_total (c : String) (r r' : Row) :
    (leCanonAt c r r' || leCanonAt c r' r) = true :=
  leCanon_total _ _

theorem leCanonAt_trans (c : String) (r₁ r₂ r₃ : Row)
    (h₁ : leCanonAt c r₁ r₂ = true) (h₂ : leCanonAt c r₂ r₃ = true) :
    leCanonAt c r₁ r₃ = true :=
  leCanon_trans _ _ _ h₁ h₂

theorem cmpV_num_le (m n : Int) :
    (cmpV (some (Value.num m)) (some (Value.num n)) ≤ 0) ↔ m ≤ n := by
  simp only [cmpV, jsGt, jsLt]
  by_cases h1 : n < m
  · rw [if_pos (by simpa using h1)]
    exact iff_of_false (by omega) (by omega)
  · rw [if_neg (by simpa using h1)]
    by_cases h2 : m < n
    · rw [if_pos (by simpa using h2)]
      exact iff_of_true (by omega) (by omega)
    · rw [if_neg (by simpa using h2)]
      exact iff_of_true (by omega) (by omega)

theorem cmpV_str_le (s t : String) :
    (cmpV (some (Value.str s)) (some (Value.str t)) ≤ 0) ↔ s ≤ t := by
  simp only [cmpV, jsGt, jsLt]
  by_cases h1 : t < s
  · rw [if_pos (by simpa using h1)]
    exact iff_of_false (by omega) (not_le.mpr h1)
  · rw [if_neg (by simpa using h1)]
    by_cases h2 : s < t
    · rw [if_pos (by simpa using h2)]
      exact iff_of_true (by omega) (le_of_lt h2)
    · rw [if_neg (by simpa using h2)]
      exact iff_of_true (by omega) (not_lt.mp h1)

/-- On a homogeneous column the lodash ordering coincides with the
canonical linear comparison on every pair of rows of the dataset. -/
theorem rowLE_eq_leCanonAt {c : String} {data : List Row}
    (h : homogCol c data = true) {r r' : Row} (hr : r ∈ data)
    (hr' : r' ∈ data) : rowLE c r r' = leCanonAt c r r' := by
  rw [homogCol, Bool.or_eq_true] at h
  rw [rowLE, leCanonAt, cmpAt]
  rcases h with h | h
  · have h1 := List.all_eq_true.mp h r hr
    have h2 := List.all_eq_true.mp h r' hr'
    rcases hv1 : getVal r c with _ | v1 <;>
      rcases hv2 : getVal r' c with _ | v2 <;>
      rw [hv1] at h1 <;> rw [hv2] at h2 <;> simp only at h1 h2
    · rfl
    · cases v2 <;> rfl
    · cases v1 <;> rfl
    · rcases v1 with m1 | s1 <;> rcases v2 with m2 | s2
      · exact decide_eq_decide.mpr (cmpV_num_le m1 m2)
      · simp [valIsNum] at h2
      · simp [valIsNum] at h1
      · simp [valIsNum] at h1
  · have h1 := List.all_eq_true.mp h r hr
    have h2 := List.all_eq_true.mp h r' hr'
    rcases hv1 : getVal r c with _ | v1 <;>
      rcases hv2 : getVal r' c with _ | v2 <;>
      rw [hv1] at h1 <;> rw [hv2] at h2 <;> simp only at h1 h2
    · rfl
    · cases v2 <;> rfl
    · cases v1 <;> rfl
    · rcases v1 with m1 | s1 <;> rcases v2 with m2 | s2
      · simp [valIsNum] at h1
      · simp [valIsNum] at h1
      · simp [valIsNum] at h2
      · exact decide_eq_decide.mpr (cmpV_str_le s1 s2)

theorem sortBy_eq_canon {c : String} {data : List Row}
    (h : homogCol c data = true) :
    sortBy data c = List.mergeSort data (leCanonAt c) :=
  mergeSort_congr _ _ data fun _ _ ha hb => rowLE_eq_leCanonAt h ha hb

/-- A homogeneous column sorts: the result of `sortBy` is pairwise
non-decreasing under the lodash comparison on that column. -/
theorem sortBy_sorted {c : String} {data : List Row}
    (h : homogCol c data = true) :
    (sortBy data c).Pairwise (fun r r' => rowLE c r r' = true) := by
  rw [sortBy_eq_canon h]
  have hsorted : (List.mergeSort data (leCanonAt c)).Pairwise
      (fun r r' => leCanonAt c r r' = true) := List.sorted_mergeSort
    (fun a b d hab hbd => leCanonAt_trans c a b d hab hbd)
    (fun a b => leCanonAt_total c a b) data
  refine hsorted.imp_of_mem fun {a b} ha hb hab => ?_
  rw [rowLE_eq_leCanonAt h (List.mem_mergeSort.mp ha) (List.mem_mergeSort.mp hb)]
  exact hab

/-- Stability of `sortBy` on a homogeneous column: two rows appearing in
order in the input and tying on the sort key appear in the same order in
the output. -/
theorem sortBy_stable {c : String} {data : List Row}
    (h : homogCol c data = true) {r r' : Row}
    (hsub : List.Sublist [r, r'] data) (htie : cmpAt c r r' = 0) :
    List.Sublist [r, r'] (sortBy data c) := by
  have hr : r ∈ data := hsub.subset (by simp)
  have hr' : r' ∈ data := hsub.subset (by simp)
  rw [sortBy_eq_canon h]
  refine List.pair_sublist_mergeSort
    (fun a b d hab hbd => leCanonAt_trans c a b d hab hbd)
    (fun a b => leCanonAt_total c a b) ?_ hsub
  rw [← rowLE_eq_leCanonAt h hr hr', rowLE, htie]
  rfl

theorem homogCol_of_perm {c : String} {l₁ l₂ : List Row}
    (hp : List.Perm l₁ l₂) (h : homogCol c l₁ = true) :
    homogCol c l₂ = true := by
  rw [homogCol, Bool.or_eq_true] at h ⊢
  rcases h with h | h
  · exact Or.inl (List.all_eq_true.mpr fun r hr =>
      List.all_eq_true.mp h r (hp.mem_iff.mpr hr))
  · exact Or.inr (List.all_eq_true.mpr fun r hr =>
      List.all_eq_true.mp h r (hp.mem_iff.mpr hr))

theorem handleSort_first (c : String) (s : AppState)
    (h : ¬ s.sortedOn.column = c) :
    handleSort c s = { s with sortedOn := { direction := ASC, column := c }
                              data := sortBy s.data c } := by
  unfold handleSort
  rw [if_neg h]

theorem handleSort_second (c : String) (s : AppState)
    (hc : s.sortedOn.column = c) (hd : s.sortedOn.direction = ASC) :
    handleSort c s =
      { s with sortedOn := { s.sortedOn with direction := DEC }
               data := (sortBy s.data c).reverse } := by
  unfold handleSort
  rw [if_pos hc, if_pos hd]

theorem handleSort_third (c : String) (s : AppState)
    (hc : s.sortedOn.column = c) (hd : ¬ s.sortedOn.direction = ASC) :
    handleSort c s =
      { s with sortedOn := { direction := ASC, column := "state" }
               data := sortBy s.data "state" } := by
  unfold handleSort
  rw [if_pos hc, if_neg hd]

/-- C1: the three-state sort cycle. Starting from a state whose sort
column differs from `c`, with both column `c` and column "state"
comparable (homogeneous): the first `Sort(c)` sets {c, ascending} and
stably reorders the dataset non-decreasing by `c` (a permutation, sorted,
ties kept in input order); the second `Sort(c)` sets direction descending
and produces the exact reverse of the first result; the third `Sort(c)`
resets the sort state to the default {"state", ascending} and produces a
reordering of the original dataset that is non-decreasing by "state". -/
theorem sort_cycle_three_state (s : AppState) (c : String)
    (hcol : ¬ s.sortedOn.column = c)
    (hc : homogCol c s.data = true)
    (hst : homogCol "state" s.data = true) :
    ((handleSort c s).sortedOn = { direction := ASC, column := c } ∧
      List.Perm (handleSort c s).data s.data ∧
      ((handleSort c s).data).Pairwise (fun r r' => rowLE c r r' = true) ∧
      (∀ r r', List.Sublist [r, r'] s.data → cmpAt c r r' = 0 →
        List.Sublist [r, r'] (handleSort c s).data)) ∧
    ((handleSort c (handleSort c s)).sortedOn =
        { direction := DEC, column := c } ∧
      (handleSort c (handleSort c s)).data = ((handleSort c s).data).reverse) ∧
    ((handleSort c (handleSort c (handleSort c s))).sortedOn =
        { direction := ASC, column := "state" } ∧
      List.Perm (handleSort c (handleSort c (handleSort c s))).data s.data ∧
      ((handleSort c (handleSort c (handleSort c s))).data).Pairwise
        (fun r r' => rowLE "state" r r' = true)) := by
  have e1 := handleSort_first c s hcol
  have e1s : (handleSort c s).sortedOn = { direction := ASC, column := c } := by
    rw [e1]
  have e1d : (handleSort c s).data = sortBy s.data c := by
    rw [e1]
  have hperm1 : List.Perm (sortBy s.data c) s.data :=
    List.mergeSort_perm s.data (rowLE c)
  have hpair1 : (sortBy s.data c).Pairwise (fun r r' => rowLE c r r' = true) :=
    sortBy_sorted hc
  have e2 := handleSort_second c (handleSort c s) (by rw [e1s]) (by rw [e1s])
  have e2s : (handleSort c (handleSort c s)).sortedOn =
      { direction := DEC, column := c } := by
    rw [e2, e1s]
  have hidm : sortBy (handleSort c s).data c = (handleSort c s).data := by
    rw [e1d]
    exact List.mergeSort_of_sorted hpair1
  have e2d : (handleSort c (handleSort c s)).data =
      ((handleSort c s).data).reverse := by
    rw [e2]
    simp only
    rw [hidm]
  have hpermRev : List.Perm (handleSort c (handleSort c s)).data s.data := by
    rw [e2d, e1d]
    exact (List.reverse_perm _).trans hperm1
  have hd2 : ¬ (handleSort c (handleSort c s)).sortedOn.direction = ASC := by
    rw [e2s]
    simp [ASC, DEC]
  have e3 := handleSort_third c (handleSort c (handleSort c s)) (by rw [e2s]) hd2
  have e3s : (handleSort c (handleSort c (handleSort c s))).sortedOn =
      { direction := ASC, column := "state" } := by
    rw [e3]
  have e3d : (handleSort c (handleSort c (handleSort c s))).data =
      sortBy (handleSort c (handleSort c s)).data "state" := by
    rw [e3]
  have hst2 : homogCol "state" (handleSort c (handleSort c s)).data = true :=
    homogCol_of_perm hpermRev.symm hst
  refine ⟨⟨e1s, by rw [e1d]; exact hperm1, by rw [e1d]; exact hpair1,
      fun r r' hsub htie => by rw [e1d]; exact sortBy_stable hc hsub htie⟩,
    ⟨e2s, e2d⟩, ⟨e3s, ?_, by rw [e3d]; exact sortBy_sorted hst2⟩⟩
  rw [e3d]
  exact (List.mergeSort_perm _ _).trans hpermRev

/-- Witness for the sort cycle at the spec's two-row Texas/Ohio dataset,
sorting on the numeric "pop" column: the second sort's dataset is the
exact reverse of the first sort's dataset. -/
theorem sort_cycle_three_state_witness :
    (handleSort "pop" (handleSort "pop" { initState with data :=
      [[("state", Value.str "Texas"), ("pop", Value.num 29000000)],
       [("state", Value.str "Ohio"), ("pop", Value.num 11800000)]] })).data =
      ((handleSort "pop" { initState with data :=
        [[("state", Value.str "Texas"), ("pop", Value.num 29000000)],
         [("state", Value.str "Ohio"), ("pop", Value.num 11800000)]] }).data).reverse :=
  ((sort_cycle_three_state { initState with data :=
      [[("state", Value.str "Texas"), ("pop", Value.num 29000000)],
       [("state", Value.str "Ohio"), ("pop", Value.num 11800000)]] } "pop"
    (by decide) (by decide) (by decide)).2.1).2

end DataGrid
